import Mathlib

/-!
# Verification of the datad cluster coordination and request-routing engine

A shallow embedding of the `datad` Go package (registry, client, keyed
transport, node balancer, path and URL-encoding utilities) together with
proofs about the properties stated in the specification.

Go strings are modelled as `List Char` (for the inputs appearing in the
claims all characters are ASCII, so characters coincide with bytes).
The hierarchical coordination store is modelled as a flat association
list from full paths to values, with a directory flag per entry; this
follows the in-memory test backend of `src/backend.go` (exact string
paths, `slash` normalization of the stored path) extended with the
`ListKeys` / non-recursive `List` operations of the current `Backend`
interface, and with the spec's error contract for `Delete` ("removes a
single leaf; missing is an error kind", the behaviour of the production
etcd backend).
-/

namespace Datad

/-- Convert a Lean string literal to the `List Char` model of Go strings. -/
def gs (s : String) : List Char := s.toList

/-- Error kinds of the package (spec §7). `keyNotExist` is `ErrKeyNotExist`,
`noNodesForKey` is `ErrNoNodesForKey`, `httpError` is `HTTPError{status, body}`,
`transportError` is a lower-level round-trip failure, `goPanic` marks a Go
runtime panic (e.g. an out-of-range index). -/
inductive DErr where
  | keyNotExist : DErr
  | noNodesForKey : DErr
  | httpError (status : Nat) (body : List Char) : DErr
  | transportError (msg : List Char) : DErr
  | goPanic : DErr
deriving DecidableEq

/-- One entry of the coordination store: a full path, its value, and whether
the entry is a directory. -/
structure Entry where
  path : List Char
  value : List Char
  dir : Bool
deriving DecidableEq

/-- The coordination store, modelled as a flat list of entries. -/
abbrev Store := List Entry

/-- `slash` from the source: add a leading slash if the path has none
(empty input becomes `"/"`, input already starting with `'/'` is returned
unchanged). -/
def slash : List Char → List Char
  | [] => ['/']
  | c :: rest => if c = '/' then c :: rest else '/' :: c :: rest

/-- `unslash` from the source: remove one leading slash if present
(`strings.TrimPrefix(path, "/")`). -/
def unslash (p : List Char) : List Char :=
  if p.take 1 = ['/'] then p.drop 1 else p

/-- Remove leading and trailing slashes of a path component. -/
def trimSlashes (s : List Char) : List Char :=
  ((s.dropWhile (· = '/')).reverse.dropWhile (· = '/')).reverse

/-- Join one further component onto a path with a single `'/'` separator
(components reduced to nothing contribute no separator). -/
def joinTwo (a b : List Char) : List Char :=
  if trimSlashes b = [] then a else a ++ '/' :: trimSlashes b

/-- Modelled from the spec: `keyPathJoin`, the path-composition helper of the
repository (its defining file is not under `src/`; only its callers are).
Per the layout of spec §6 it joins the components into the root-relative
paths `data/<key>/__nodes` and `nodes/<node>/__keys`, with single `'/'`
separators. -/
def keyPathJoin : List (List Char) → List Char
  | [] => []
  | c :: rest => rest.foldl joinTwo (trimSlashes c)

/-- Modelled from the spec: the `data/` root of the key→nodes index
(spec §3; the constant's defining file is not under `src/`). -/
def dataDirName : List Char := gs "data"

/-- Modelled from the spec: the `nodes/` root of membership and of the
node→keys index (spec §3; the constant's defining file is not under `src/`). -/
def nodesDirName : List Char := gs "nodes"

/-- `nodesForKeyDir` from `src/registry.go`: the directory holding the
"node holds key" markers of a key. -/
def nodesForKeyDir (key : List Char) : List Char :=
  keyPathJoin [dataDirName, key, gs "__nodes"]

/-- `keysForNodeDir` from `src/registry.go`: the directory holding the
"key is assigned to node" markers of a node. -/
def keysForNodeDir (node : List Char) : List Char :=
  keyPathJoin [nodesDirName, node, gs "__keys"]

/-- `Backend.Set`: store a value at a path (the in-memory backend normalizes
the stored path with `slash`); an existing entry at the path is replaced. -/
def backendSet (st : Store) (p v : List Char) : Store :=
  ⟨slash p, v, false⟩ :: st.filter (fun e => e.path ≠ slash p)

/-- `Backend.Delete`: remove the entry at a path; deleting a missing path is
an error (spec §4.1, the behaviour of the production etcd backend). The
returned store reflects the (absent) effect when the error is reported. -/
def backendDelete (st : Store) (p : List Char) : Store × Option DErr :=
  if ∃ e ∈ st, e.path = slash p then
    (st.filter (fun e => e.path ≠ slash p), none)
  else (st, some DErr.keyNotExist)

/-- The normalized request path used when listing a directory: `slash` it and
ensure a trailing `'/'` (as the in-memory backend's `List` does). -/
def dirListPre (dir : List Char) : List Char :=
  if (slash dir).getLast? = some '/' then slash dir else slash dir ++ ['/']

/-- `Backend.ListKeys(dir, recursive := true)`: all non-directory entries
below `dir`, as path suffixes relative to `dir`. -/
def backendListKeys (st : Store) (dir : List Char) : List (List Char) :=
  st.filterMap (fun e =>
    if e.dir = false ∧ (e.path.take (dirListPre dir).length = dirListPre dir) then
      some (e.path.drop (dirListPre dir).length)
    else none)

/-- `Backend.List(dir, recursive := false)`: the direct children of `dir`
(first path segment of each entry below `dir`, directories included),
each listed once. -/
def backendListOne (st : Store) (dir : List Char) : List (List Char) :=
  (st.filterMap (fun e =>
    if e.path.take (dirListPre dir).length = dirListPre dir then
      some ((e.path.drop (dirListPre dir).length).takeWhile (fun c => c ≠ '/'))
    else none)).dedup

/-- `Registry.KeysForNode` from `src/registry.go`. -/
def registryKeysForNode (st : Store) (node : List Char) : List (List Char) :=
  backendListKeys st (keysForNodeDir node)

/-- `Registry.NodesForKey` from `src/registry.go`. -/
def registryNodesForKey (st : Store) (key : List Char) : List (List Char) :=
  backendListKeys st (nodesForKeyDir key)

/-- `Registry.Add` from `src/registry.go`: set the "node holds key" marker,
then the "key assigned to node" marker (both with empty values). -/
def registryAdd (st : Store) (key node : List Char) : Store :=
  backendSet (backendSet st (nodesForKeyDir key ++ '/' :: node) [])
    (keysForNodeDir node ++ '/' :: key) []

/-- `Registry.Remove` from `src/registry.go`: delete the "node holds key"
marker, then (only if that succeeded) the "key assigned to node" marker.
The returned store carries the partial effect when the second delete fails. -/
def registryRemove (st : Store) (key node : List Char) : Store × Option DErr :=
  match backendDelete st (nodesForKeyDir key ++ '/' :: node) with
  | (st1, some e) => (st1, some e)
  | (st1, none) => backendDelete st1 (keysForNodeDir node ++ '/' :: key)

/-- The full stored path of the "node holds key" marker of `(key, node)`. -/
def dataMarkerPath (key node : List Char) : List Char :=
  slash (nodesForKeyDir key ++ '/' :: node)

/-- The full stored path of the "key assigned to node" marker of `(key, node)`. -/
def keysMarkerPath (key node : List Char) : List Char :=
  slash (keysForNodeDir node ++ '/' :: key)

/-- A path is present in a store. -/
def pathPresent (st : Store) (p : List Char) : Prop :=
  ∃ e ∈ st, e.path = p

instance (st : Store) (p : List Char) : Decidable (pathPresent st p) := by
  unfold pathPresent; infer_instance

/-! ## Structural lemmas about paths and listing -/

/-- A directory path as produced by `keyPathJoin`: non-empty, does not start
and does not end with `'/'`. -/
def goodDir (dir : List Char) : Prop :=
  (∃ c t, dir = c :: t ∧ c ≠ '/') ∧ dir.getLast? ≠ some '/'

theorem joinTwo_exists_append (a b : List Char) : ∃ t, joinTwo a b = a ++ t := by
  unfold joinTwo
  split
  · exact ⟨[], by simp⟩
  · exact ⟨_, rfl⟩

theorem nodesForKeyDir_eq (key : List Char) :
    nodesForKeyDir key = joinTwo (joinTwo (gs "data") key) (gs "__nodes") := by
  have h : trimSlashes (gs "data") = gs "data" := by decide
  simp only [nodesForKeyDir, keyPathJoin, dataDirName, List.foldl_cons, List.foldl_nil]
  rw [h]

theorem keysForNodeDir_eq (node : List Char) :
    keysForNodeDir node = joinTwo (joinTwo (gs "nodes") node) (gs "__keys") := by
  have h : trimSlashes (gs "nodes") = gs "nodes" := by decide
  simp only [keysForNodeDir, keyPathJoin, nodesDirName, List.foldl_cons, List.foldl_nil]
  rw [h]

theorem nodesForKeyDir_head (key : List Char) :
    ∃ t, nodesForKeyDir key = 'd' :: t := by
  rw [nodesForKeyDir_eq]
  obtain ⟨t₁, h₁⟩ := joinTwo_exists_append (gs "data") key
  obtain ⟨t₂, h₂⟩ := joinTwo_exists_append (joinTwo (gs "data") key) (gs "__nodes")
  rw [h₂, h₁]
  exact ⟨_, rfl⟩

theorem keysForNodeDir_head (node : List Char) :
    ∃ t, keysForNodeDir node = 'n' :: t := by
  rw [keysForNodeDir_eq]
  obtain ⟨t₁, h₁⟩ := joinTwo_exists_append (gs "nodes") node
  obtain ⟨t₂, h₂⟩ := joinTwo_exists_append (joinTwo (gs "nodes") node) (gs "__keys")
  rw [h₂, h₁]
  exact ⟨_, rfl⟩

theorem joinTwo_getLast_fixed (a b : List Char) (hb : trimSlashes b = b)
    (hbne : b ≠ []) : (joinTwo a b).getLast? = b.getLast? := by
  unfold joinTwo
  rw [hb, if_neg hbne]
  rw [List.getLast?_append]
  obtain ⟨v, hv⟩ : ∃ v, b.getLast? = some v := by
    cases hl : b.getLast? with
    | none => exact absurd (List.getLast?_eq_none_iff.mp hl) hbne
    | some v => exact ⟨v, rfl⟩
  have : ('/' :: b).getLast? = some v := by
    have : ('/' :: b) = ['/'] ++ b := rfl
    rw [this, List.getLast?_append, hv]
    simp
  rw [this, hv]
  simp

theorem nodesForKeyDir_getLast (key : List Char) :
    (nodesForKeyDir key).getLast? = some 's' := by
  rw [nodesForKeyDir_eq, joinTwo_getLast_fixed]
  · decide
  · decide
  · decide

theorem keysForNodeDir_getLast (node : List Char) :
    (keysForNodeDir node).getLast? = some 's' := by
  rw [keysForNodeDir_eq, joinTwo_getLast_fixed]
  · decide
  · decide
  · decide

theorem goodDir_nodesForKeyDir (key : List Char) : goodDir (nodesForKeyDir key) := by
  obtain ⟨t, ht⟩ := nodesForKeyDir_head key
  refine ⟨⟨'d', t, ht, by decide⟩, ?_⟩
  rw [nodesForKeyDir_getLast]
  simp

theorem goodDir_keysForNodeDir (node : List Char) : goodDir (keysForNodeDir node) := by
  obtain ⟨t, ht⟩ := keysForNodeDir_head node
  refine ⟨⟨'n', t, ht, by decide⟩, ?_⟩
  rw [keysForNodeDir_getLast]
  simp

theorem slash_of_head_ne (c : Char) (t : List Char) (hc : c ≠ '/') :
    slash (c :: t) = '/' :: c :: t := by
  simp [slash, hc]

theorem getLast?_slash (dir : List Char) (h : dir ≠ []) :
    (slash dir).getLast? = dir.getLast? := by
  obtain ⟨c, t, rfl⟩ : ∃ c t, dir = c :: t := by
    cases dir with
    | nil => exact absurd rfl h
    | cons c t => exact ⟨c, t, rfl⟩
  by_cases hc : c = '/'
  · simp [slash, hc]
  · rw [slash_of_head_ne c t hc]
    have h2 : ('/' :: c :: t) = ['/'] ++ (c :: t) := rfl
    rw [h2, List.getLast?_append]
    obtain ⟨v, hv⟩ : ∃ v, (c :: t).getLast? = some v := by
      cases hl : (c :: t).getLast? with
      | none => exact absurd (List.getLast?_eq_none_iff.mp hl) (by simp)
      | some v => exact ⟨v, rfl⟩
    rw [hv]
    simp

theorem dirListPre_eq (dir : List Char) (h : goodDir dir) :
    dirListPre dir = slash dir ++ ['/'] := by
  obtain ⟨⟨c, t, rfl, hc⟩, hlast⟩ := h
  unfold dirListPre
  rw [getLast?_slash _ (by simp)]
  simp [hlast]

theorem slash_marker (dir x : List Char) (h : goodDir dir) :
    slash (dir ++ '/' :: x) = dirListPre dir ++ x := by
  obtain ⟨⟨c, t, rfl, hc⟩, hlast⟩ := h
  rw [dirListPre_eq _ ⟨⟨c, t, rfl, hc⟩, hlast⟩]
  rw [slash_of_head_ne _ _ hc, List.cons_append, slash_of_head_ne _ _ hc]
  simp

theorem take_drop_iff (p x q : List Char) :
    (p.take q.length = q ∧ p.drop q.length = x) ↔ p = q ++ x := by
  constructor
  · rintro ⟨h1, h2⟩
    conv_lhs => rw [← List.take_append_drop q.length p]
    rw [h1, h2]
  · rintro rfl
    exact ⟨List.take_left q x, List.drop_left q x⟩

theorem mem_backendListKeys (st : Store) (dir x : List Char) :
    x ∈ backendListKeys st dir ↔
      ∃ e ∈ st, e.dir = false ∧ e.path = dirListPre dir ++ x := by
  simp only [backendListKeys, List.mem_filterMap]
  constructor
  · rintro ⟨e, he, hf⟩
    rw [Option.ite_none_right_eq_some] at hf
    obtain ⟨⟨hd, ht⟩, hx⟩ := hf
    refine ⟨e, he, hd, ?_⟩
    exact (take_drop_iff e.path x (dirListPre dir)).mp ⟨ht, Option.some.inj hx⟩
  · rintro ⟨e, he, hd, hp⟩
    refine ⟨e, he, ?_⟩
    obtain ⟨ht, hdr⟩ := (take_drop_iff e.path x (dirListPre dir)).mpr hp
    rw [Option.ite_none_right_eq_some]
    exact ⟨⟨hd, ht⟩, by rw [hdr]⟩

theorem mem_registryNodesForKey (st : Store) (key n : List Char) :
    n ∈ registryNodesForKey st key ↔
      ∃ e ∈ st, e.dir = false ∧ e.path = dataMarkerPath key n := by
  rw [registryNodesForKey, mem_backendListKeys]
  have h := slash_marker (nodesForKeyDir key) n (goodDir_nodesForKeyDir key)
  rw [dataMarkerPath, h]

theorem mem_registryKeysForNode (st : Store) (k node : List Char) :
    k ∈ registryKeysForNode st node ↔
      ∃ e ∈ st, e.dir = false ∧ e.path = keysMarkerPath k node := by
  rw [registryKeysForNode, mem_backendListKeys]
  have h := slash_marker (keysForNodeDir node) k (goodDir_keysForNodeDir node)
  rw [keysMarkerPath, h]

theorem dataMarkerPath_ne_keysMarkerPath (k n k' n' : List Char) :
    dataMarkerPath k n ≠ keysMarkerPath k' n' := by
  obtain ⟨t, ht⟩ := nodesForKeyDir_head k
  obtain ⟨t', ht'⟩ := keysForNodeDir_head n'
  rw [dataMarkerPath, keysMarkerPath, ht, ht', List.cons_append, List.cons_append]
  rw [slash_of_head_ne _ _ (by decide), slash_of_head_ne _ _ (by decide)]
  intro h
  exact absurd (List.cons.inj (List.cons.inj h).2).1 (by decide)

theorem dataMarkerPath_eq (k n : List Char) :
    dataMarkerPath k n = dirListPre (nodesForKeyDir k) ++ n :=
  slash_marker _ _ (goodDir_nodesForKeyDir k)

theorem keysMarkerPath_eq (k n : List Char) :
    keysMarkerPath k n = dirListPre (keysForNodeDir n) ++ k :=
  slash_marker _ _ (goodDir_keysForNodeDir n)

/-! ## C2: bidirectional registry membership -/

theorem mem_backendSet_self (st : Store) (p v : List Char) :
    (⟨slash p, v, false⟩ : Entry) ∈ backendSet st p v := by
  simp [backendSet]

theorem mem_backendSet_of_ne (st : Store) (p v : List Char) (e : Entry)
    (he : e ∈ st) (hne : e.path ≠ slash p) : e ∈ backendSet st p v := by
  simp [backendSet, List.mem_filter]
  right
  exact ⟨he, hne⟩

theorem backendDelete_eq_none (st st' : Store) (p : List Char)
    (h : backendDelete st p = (st', none)) :
    st' = st.filter (fun e => e.path ≠ slash p) := by
  unfold backendDelete at h
  split at h
  · exact (Prod.mk.injEq _ _ _ _ ▸ h).1.symm
  · exact absurd (Prod.mk.injEq _ _ _ _ ▸ h).2 (by simp)

/-- C2: for every key `k` and node `n`, after `Registry.Add(k, n)` returns,
`k ∈ KeysForNode(n)` and `n ∈ NodesForKey(k)` both hold; after
`Registry.Remove(k, n)` returns successfully (no error), neither holds. -/
theorem c2_registry_bidirectional (st : Store) (k n : List Char) :
    (k ∈ registryKeysForNode (registryAdd st k n) n ∧
     n ∈ registryNodesForKey (registryAdd st k n) k) ∧
    (∀ st', registryRemove st k n = (st', none) →
      k ∉ registryKeysForNode st' n ∧ n ∉ registryNodesForKey st' k) := by
  constructor
  · constructor
    · rw [mem_registryKeysForNode]
      exact ⟨⟨keysMarkerPath k n, [], false⟩, mem_backendSet_self _ _ _, rfl, rfl⟩
    · rw [mem_registryNodesForKey]
      refine ⟨⟨dataMarkerPath k n, [], false⟩, ?_, rfl, rfl⟩
      exact mem_backendSet_of_ne _ _ _ _ (mem_backendSet_self _ _ _)
        (dataMarkerPath_ne_keysMarkerPath k n k n)
  · intro st' hrem
    unfold registryRemove at hrem
    rcases hb1 : backendDelete st (nodesForKeyDir k ++ '/' :: n) with ⟨st1, o1⟩
    rw [hb1] at hrem
    cases o1 with
    | some e => exact absurd (Prod.mk.injEq _ _ _ _ ▸ hrem).2 (by simp)
    | none =>
      have hst1 : st1 = st.filter (fun e => e.path ≠ dataMarkerPath k n) :=
        backendDelete_eq_none _ _ _ hb1
      have hst' : st' = st1.filter (fun e => e.path ≠ keysMarkerPath k n) :=
        backendDelete_eq_none _ _ _ hrem
      constructor
      · rw [mem_registryKeysForNode]
        rintro ⟨e, he, _, hp⟩
        rw [hst'] at he
        simp [List.mem_filter] at he
        exact he.2 hp
      · rw [mem_registryNodesForKey]
        rintro ⟨e, he, _, hp⟩
        rw [hst', hst1] at he
        simp [List.mem_filter] at he
        exact he.2.2 hp

theorem c2_registry_bidirectional_witness :
    (gs "/k" ∈ registryKeysForNode (registryAdd [] (gs "/k") (gs "h:1")) (gs "h:1")) ∧
    (gs "/k" ∉ registryKeysForNode
      (registryRemove (registryAdd [] (gs "/k") (gs "h:1")) (gs "/k") (gs "h:1")).1 (gs "h:1")) := by
  refine ⟨(c2_registry_bidirectional [] (gs "/k") (gs "h:1")).1.1, ?_⟩
  exact ((c2_registry_bidirectional (registryAdd [] (gs "/k") (gs "h:1")) (gs "/k")
    (gs "h:1")).2 _ (by decide)).1

/-! ## C7: key normalization (`slash`) -/

/-- C7 counterexample: `slash` does not strip a trailing slash (and does not
collapse repeated leading slashes): `slash "a/" = "/a/"` ends in `'/'` even
though `"a/"` is not the literal string `"/"`, and `slash "//" = "//"` keeps
both leading slashes. -/
theorem c7_slash_counterexample :
    (slash (gs "a/")).getLast? = some '/' ∧ gs "a/" ≠ gs "/" ∧
      (slash (gs "//")).take 2 = ['/', '/'] := by
  decide

/-- C7 (amended): `slash` guarantees a leading `'/'` only: the result always
starts with `'/'`; an input already starting with `'/'` is returned
unchanged (so extra leading or trailing slashes are preserved), any other
input gets `'/'` prepended (the empty input becomes `"/"`). -/
theorem c7_slash_normalization (s : List Char) :
    (slash s).take 1 = ['/'] ∧
      (s.take 1 = ['/'] → slash s = s) ∧
      (s.take 1 ≠ ['/'] → slash s = '/' :: s) := by
  cases s with
  | nil => exact ⟨rfl, by intro h; exact absurd h (by decide), fun _ => rfl⟩
  | cons c t =>
    by_cases hc : c = '/'
    · subst hc
      exact ⟨by simp [slash], fun _ => by simp [slash], fun h => absurd (by simp) h⟩
    · refine ⟨by simp [slash, hc], fun h => ?_, fun _ => by simp [slash, hc]⟩
      exact absurd (by simpa using h) hc

theorem c7_slash_normalization_witness :
    slash (gs "/y") = gs "/y" ∧ slash (gs "x") = '/' :: gs "x" :=
  ⟨(c7_slash_normalization (gs "/y")).2.1 (by decide),
   (c7_slash_normalization (gs "x")).2.2 (by decide)⟩

/-! ## Client: transport construction (C5) -/

/-- An HTTP response, reduced to what the transport inspects: the status
code and the body bytes. -/
structure Resp where
  status : Nat
  body : List Char
deriving DecidableEq

/-- The `keyTransport` value built by `Client.transportForKey` (the
underlying round-tripper is supplied separately as a function when the
transport is run). -/
structure KeyTransport where
  key : List Char
  nodes : List (List Char)
deriving DecidableEq

/-- `Client.transportForKey` from `src/client.go`: an empty candidate list
yields `ErrNoNodesForKey`, otherwise a `keyTransport` over the nodes. -/
def transportForKey (key : List Char) (nodes : List (List Char)) :
    Except DErr KeyTransport :=
  if nodes = [] then .error DErr.noNodesForKey else .ok ⟨key, nodes⟩

/-- `Client.TransportForKey` from `src/client.go`: resolve the candidates
with `Registry.NodesForKey`, then build the transport. -/
def clientTransportForKey (st : Store) (key : List Char) :
    Except DErr KeyTransport :=
  transportForKey key (registryNodesForKey st key)

/-- C5: `Client.TransportForKey` returns `ErrNoNodesForKey` exactly when the
registry holds no registrations for the key; whenever at least one node is
registered it returns a transport (over those nodes) and no error. -/
theorem c5_transportForKey_noNodes (st : Store) (key : List Char) :
    (clientTransportForKey st key = .error DErr.noNodesForKey ↔
      registryNodesForKey st key = []) ∧
    (registryNodesForKey st key ≠ [] →
      clientTransportForKey st key = .ok ⟨key, registryNodesForKey st key⟩) := by
  by_cases h : registryNodesForKey st key = [] <;>
    simp [clientTransportForKey, transportForKey, h]

theorem c5_transportForKey_noNodes_witness :
    clientTransportForKey (registryAdd [] (gs "/k") (gs "h:1")) (gs "/k") =
      .ok ⟨gs "/k", registryNodesForKey (registryAdd [] (gs "/k") (gs "h:1")) (gs "/k")⟩ :=
  (c5_transportForKey_noNodes (registryAdd [] (gs "/k") (gs "h:1")) (gs "/k")).2 (by decide)

/-! ## URL encoding of node identifiers (`encodeURLForKey` / `decodeURLForKey`) -/

/-- The bytes Go's query escaping leaves unescaped (`shouldEscape` for a
query component): ASCII alphanumerics and `- _ . ~`. -/
def goUnreservedQuery (c : Char) : Bool :=
  c.isAlpha || c.isDigit || c = '-' || c = '_' || c = '.' || c = '~'

/-- Upper-case hexadecimal digit of a value below 16. -/
def upperHexDigit (n : Nat) : Char :=
  if n < 10 then Char.ofNat (48 + n) else Char.ofNat (55 + n)

/-- Go's `url.QueryEscape` on bytes: unreserved bytes are kept, space
becomes `'+'`, every other byte becomes `%XX` with upper-case hex. -/
def queryEscape : List Char → List Char
  | [] => []
  | c :: rest =>
    if goUnreservedQuery c then c :: queryEscape rest
    else if c = ' ' then '+' :: queryEscape rest
    else '%' :: upperHexDigit (c.toNat / 16) :: upperHexDigit (c.toNat % 16) :: queryEscape rest

/-- Hexadecimal value of a digit character (either case), as in Go's
`unhex`; `none` for a non-hex character. -/
def hexVal (c : Char) : Option Nat :=
  if '0' ≤ c ∧ c ≤ '9' then some (c.toNat - 48)
  else if 'a' ≤ c ∧ c ≤ 'f' then some (c.toNat - 87)
  else if 'A' ≤ c ∧ c ≤ 'F' then some (c.toNat - 55)
  else none

/-- Go's `url.QueryUnescape`: `%XX` decodes to the byte `XX` (a malformed
`%` sequence is an error), `'+'` decodes to space, all else is kept. -/
def queryUnescape : List Char → Option (List Char)
  | [] => some []
  | c :: rest =>
    if c = '%' then
      match rest with
      | c1 :: c2 :: rest' =>
        match hexVal c1, hexVal c2 with
        | some a, some b => (queryUnescape rest').map (fun t => Char.ofNat (16 * a + b) :: t)
        | _, _ => none
      | _ => none
    else if c = '+' then (queryUnescape rest).map (fun t => ' ' :: t)
    else (queryUnescape rest).map (fun t => c :: t)

/-- Go's `strings.Replace(s, "/", "%2F", -1)` (left-to-right replacement of
every occurrence), specialized to the single-character pattern used by
`encodeURLForKey`. -/
def replaceSlashEsc : List Char → List Char
  | [] => []
  | c :: rest =>
    if c = '/' then '%' :: '2' :: 'F' :: replaceSlashEsc rest
    else c :: replaceSlashEsc rest

/-- Go's `strings.Replace(s, "%2F", "/", -1)`: scan left to right; where the
remainder starts with `%2F`, emit `'/'` and skip the three matched
characters, otherwise copy one character. -/
def replaceEscSlash : List Char → List Char
  | [] => []
  | '%' :: '2' :: 'F' :: rest => '/' :: replaceEscSlash rest
  | c :: rest => c :: replaceEscSlash rest

/-- `encodeURLForKey` from `src/unnamed/part_006`: replace every `'/'` by
the literal `%2F`, then query-escape. -/
def encodeURLForKey (urlStr : List Char) : List Char :=
  queryEscape (replaceSlashEsc urlStr)

/-- `decodeURLForKey` from `src/unnamed/part_006`: query-unescape, then
replace every literal `%2F` by `'/'`. -/
def decodeURLForKey (enc : List Char) : Option (List Char) :=
  (queryUnescape enc).map (fun s => replaceEscSlash s)

/-! ## C8: encode/decode round trip -/

/-- The character alphabet of claim C8 / spec P5: `'/'`, ASCII letters and
digits, `':'`, `'.'`, `'-'`. -/
def allowedNodeChar (c : Char) : Bool :=
  c = '/' || c.isAlpha || c.isDigit || c = ':' || c = '.' || c = '-'

theorem toNat_lt_of_isAlpha (c : Char) (h : c.isAlpha = true) : c.toNat < 256 := by
  simp [Char.isAlpha, Char.isUpper, Char.isLower] at h
  rcases h with ⟨h1, h2⟩ | ⟨h1, h2⟩
  · have h3 : c.val.toNat ≤ 90 := UInt32.toNat_le_of_le (by norm_num) h2
    exact lt_of_le_of_lt h3 (by norm_num)
  · have h3 : c.val.toNat ≤ 122 := UInt32.toNat_le_of_le (by norm_num) h2
    exact lt_of_le_of_lt h3 (by norm_num)

theorem toNat_lt_of_isDigit (c : Char) (h : c.isDigit = true) : c.toNat < 256 := by
  simp [Char.isDigit] at h
  have h3 : c.val.toNat ≤ 57 := UInt32.toNat_le_of_le (by norm_num) h.2
  exact lt_of_le_of_lt h3 (by norm_num)

theorem toNat_lt_of_allowed (c : Char) (h : allowedNodeChar c = true) : c.toNat < 256 := by
  simp only [allowedNodeChar, Bool.or_eq_true, decide_eq_true_eq] at h
  rcases h with ((((h | h) | h) | h) | h) | h
  · subst h; decide
  · exact toNat_lt_of_isAlpha c h
  · exact toNat_lt_of_isDigit c h
  · subst h; decide
  · subst h; decide
  · subst h; decide

theorem replaceSlashEsc_cons_slash (l : List Char) :
    replaceSlashEsc ('/' :: l) = '%' :: '2' :: 'F' :: replaceSlashEsc l := by
  rw [replaceSlashEsc, if_pos rfl]

theorem replaceSlashEsc_cons_other (c : Char) (l : List Char) (h : c ≠ '/') :
    replaceSlashEsc (c :: l) = c :: replaceSlashEsc l := by
  rw [replaceSlashEsc, if_neg h]

theorem mem_replaceSlashEsc (s : List Char) (c : Char) (hc : c ∈ replaceSlashEsc s) :
    c ∈ s ∨ c = '%' ∨ c = '2' ∨ c = 'F' := by
  induction s with
  | nil => simp [replaceSlashEsc] at hc
  | cons a rest ih =>
    by_cases ha : a = '/'
    · subst ha
      rw [replaceSlashEsc_cons_slash] at hc
      rcases List.mem_cons.mp hc with rfl | hc
      · exact Or.inr (Or.inl rfl)
      rcases List.mem_cons.mp hc with rfl | hc
      · exact Or.inr (Or.inr (Or.inl rfl))
      rcases List.mem_cons.mp hc with rfl | hc
      · exact Or.inr (Or.inr (Or.inr rfl))
      rcases ih hc with h | h
      · exact Or.inl (List.mem_cons_of_mem _ h)
      · exact Or.inr h
    · rw [replaceSlashEsc_cons_other a rest ha] at hc
      rcases List.mem_cons.mp hc with rfl | hc
      · exact Or.inl (List.mem_cons_self _ _)
      rcases ih hc with h | h
      · exact Or.inl (List.mem_cons_of_mem _ h)
      · exact Or.inr h

theorem queryUnescape_cons_other (c : Char) (l : List Char) (h1 : c ≠ '%')
    (h2 : c ≠ '+') :
    queryUnescape (c :: l) = (queryUnescape l).map (fun t => c :: t) := by
  cases l with
  | nil => simp [queryUnescape, h1, h2]
  | cons a t => cases t <;> simp [queryUnescape, h1, h2]

theorem queryUnescape_cons_plus (l : List Char) :
    queryUnescape ('+' :: l) = (queryUnescape l).map (fun t => ' ' :: t) := by
  cases l with
  | nil => simp [queryUnescape]
  | cons a t => cases t <;> simp [queryUnescape]

theorem queryUnescape_pct (c1 c2 : Char) (l : List Char) (a b : Nat)
    (h1 : hexVal c1 = some a) (h2 : hexVal c2 = some b) :
    queryUnescape ('%' :: c1 :: c2 :: l) =
      (queryUnescape l).map (fun t => Char.ofNat (16 * a + b) :: t) := by
  simp [queryUnescape, h1, h2]

theorem hexVal_upperHexDigit : ∀ n, n < 16 → hexVal (upperHexDigit n) = some n := by
  decide

theorem queryUnescape_queryEscape (s : List Char) (h : ∀ c ∈ s, c.toNat < 256) :
    queryUnescape (queryEscape s) = some s := by
  induction s with
  | nil => rfl
  | cons c rest ih =>
    have hc : c.toNat < 256 := h c (List.mem_cons_self c rest)
    have hrest : ∀ x ∈ rest, x.toNat < 256 := fun x hx => h x (List.mem_cons_of_mem c hx)
    by_cases hu : goUnreservedQuery c = true
    · have h1 : c ≠ '%' := fun he => by subst he; exact absurd hu (by decide)
      have h2 : c ≠ '+' := fun he => by subst he; exact absurd hu (by decide)
      rw [queryEscape, if_pos hu, queryUnescape_cons_other c _ h1 h2, ih hrest]
      rfl
    · by_cases hsp : c = ' '
      · subst hsp
        rw [queryEscape, if_neg hu, if_pos rfl, queryUnescape_cons_plus, ih hrest]
        rfl
      · have hdiv : c.toNat / 16 < 16 := by
          rw [Nat.div_lt_iff_lt_mul (by norm_num)]
          omega
        have hmod : c.toNat % 16 < 16 := Nat.mod_lt _ (by norm_num)
        rw [queryEscape, if_neg hu, if_neg hsp,
          queryUnescape_pct _ _ _ _ _ (hexVal_upperHexDigit _ hdiv)
            (hexVal_upperHexDigit _ hmod), ih hrest]
        rw [Nat.div_add_mod, Char.ofNat_toNat]
        rfl

theorem replaceEscSlash_cons_other (c : Char) (l : List Char) (h : c ≠ '%') :
    replaceEscSlash (c :: l) = c :: replaceEscSlash l := by
  cases l with
  | nil => simp [replaceEscSlash, h]
  | cons a t => cases t <;> simp [replaceEscSlash, h]

theorem replaceEscSlash_pct (l : List Char) :
    replaceEscSlash ('%' :: '2' :: 'F' :: l) = '/' :: replaceEscSlash l := by
  simp [replaceEscSlash]

theorem replaceEscSlash_replaceSlashEsc (s : List Char) (h : ∀ c ∈ s, c ≠ '%') :
    replaceEscSlash (replaceSlashEsc s) = s := by
  induction s with
  | nil => rfl
  | cons c rest ih =>
    have hrest : ∀ x ∈ rest, x ≠ '%' := fun x hx => h x (List.mem_cons_of_mem c hx)
    by_cases hcs : c = '/'
    · subst hcs
      rw [replaceSlashEsc_cons_slash, replaceEscSlash_pct, ih hrest]
    · have hp : c ≠ '%' := h c (List.mem_cons_self c rest)
      rw [replaceSlashEsc_cons_other c rest hcs, replaceEscSlash_cons_other c _ hp, ih hrest]

/-- C8: for every string over `'/'`, ASCII letters, digits, `':'`, `'.'`,
`'-'`, decoding the encoding is the identity: `encodeURLForKey` replaces
every `'/'` with the literal `%2F` and query-escapes the result, and
`decodeURLForKey` (query-unescape, then `%2F` back to `'/'`) recovers the
original string. -/
theorem c8_encode_decode_roundtrip (s : List Char)
    (h : ∀ c ∈ s, allowedNodeChar c = true) :
    decodeURLForKey (encodeURLForKey s) = some s := by
  have h256 : ∀ c ∈ replaceSlashEsc s, c.toNat < 256 := by
    intro c hc
    rcases mem_replaceSlashEsc s c hc with hm | rfl | rfl | rfl
    · exact toNat_lt_of_allowed c (h c hm)
    · decide
    · decide
    · decide
  have hnp : ∀ c ∈ s, c ≠ '%' := by
    intro c hm he
    subst he
    exact absurd (h _ hm) (by decide)
  rw [decodeURLForKey, encodeURLForKey, queryUnescape_queryEscape _ h256, Option.map_some']
  rw [replaceEscSlash_replaceSlashEsc s hnp]

theorem c8_encode_decode_roundtrip_witness :
    decodeURLForKey (encodeURLForKey (gs "example.com:80/x-y.z")) =
      some (gs "example.com:80/x-y.z") :=
  c8_encode_decode_roundtrip (gs "example.com:80/x-y.z") (by decide)

/-! ## C6: `Client.NodesInCluster` -/

/-- `Client.NodesInCluster` from `src/client.go`: a one-level, non-recursive
listing of the `nodes/` subtree. The entries are returned exactly as
listed; no decoding is applied. -/
def clientNodesInCluster (st : Store) : List (List Char) :=
  backendListOne st nodesDirName

/-- C6 counterexample: with the membership directory `nodes/a%2Fb:80` in the
store (as written for a node named `a%2Fb:80`), `NodesInCluster` returns
the stored segment `a%2Fb:80` verbatim, which differs from its path-segment
decoding `a/b:80`; so callers do not receive decoded node identifiers. -/
theorem c6_nodesInCluster_counterexample :
    clientNodesInCluster [⟨gs "/nodes/a%2Fb:80", [], true⟩] = [gs "a%2Fb:80"] ∧
      decodeURLForKey (gs "a%2Fb:80") = some (gs "a/b:80") ∧
      gs "a%2Fb:80" ≠ gs "a/b:80" := by
  decide

/-- C6 (amended): `Client.NodesInCluster` lists the `nodes/` subtree one
level deep and returns each entry verbatim: the results are exactly the first
path segments, as stored, of the paths below `/nodes/`. -/
theorem c6_nodesInCluster (st : Store) (x : List Char) :
    x ∈ clientNodesInCluster st ↔
      ∃ e ∈ st, e.path.take (gs "/nodes/").length = gs "/nodes/" ∧
        x = (e.path.drop (gs "/nodes/").length).takeWhile (fun c => c ≠ '/') := by
  have h : dirListPre nodesDirName = gs "/nodes/" := by decide
  simp only [clientNodesInCluster, backendListOne, h, List.mem_dedup, List.mem_filterMap,
    Option.ite_none_right_eq_some, Option.some.injEq]
  constructor
  · rintro ⟨e, he, ht, hx⟩
    exact ⟨e, he, ht, hx.symm⟩
  · rintro ⟨e, he, ht, hx⟩
    exact ⟨e, he, ht, hx.symm⟩

/-! ## The keyed transport: `keyTransport.RoundTrip` (C1, C10) -/

/-- `bytes.TrimSpace`: drop leading and trailing whitespace. -/
def goTrimSpace (s : List Char) : List Char :=
  ((s.dropWhile (fun c => c.isWhitespace)).reverse.dropWhile
    (fun c => c.isWhitespace)).reverse

/-- Whether an underlying round trip counts as success for the keyed
transport: no transport error and a status in `[200, 399]`. -/
def fetchSucceeds (fr : Except (List Char) Resp) : Bool :=
  match fr with
  | .ok r => decide (200 ≤ r.status ∧ r.status ≤ 399)
  | .error _ => false

/-- The error the keyed transport derives from a failed candidate: the
transport error itself, or `HTTPError{status, trimmed body}` for an
out-of-band response. -/
def fetchFailureErr (fr : Except (List Char) Resp) : DErr :=
  match fr with
  | .error m => DErr.transportError m
  | .ok r => DErr.httpError r.status (goTrimSpace r.body)

/-- The observable outcome of one `RoundTrip` call: the store after the
deregistrations it performed, the candidates attempted (in order), and the
returned response or error. -/
instance {α β : Type} [DecidableEq α] [DecidableEq β] : DecidableEq (Except α β) :=
  fun a b =>
    match a, b with
    | .ok x, .ok y =>
      if h : x = y then isTrue (by rw [h]) else isFalse (fun hh => h (by injection hh))
    | .error x, .error y =>
      if h : x = y then isTrue (by rw [h]) else isFalse (fun hh => h (by injection hh))
    | .ok _, .error _ => isFalse (fun hh => Except.noConfusion hh)
    | .error _, .ok _ => isFalse (fun hh => Except.noConfusion hh)

structure RTResult where
  store : Store
  attempts : List (List Char)
  result : Except DErr Resp
deriving DecidableEq

/-- The failure path of the loop body of `keyTransport.RoundTrip`
(`src/client.go:128-174`): deregister the failing candidate; a registry
error is returned immediately; on the last candidate return the
candidate's error; otherwise continue with the remaining candidates. -/
def roundTripFail (key n : List Char) (rest : List (List Char)) (st : Store)
    (e : DErr) (cont : Store → RTResult) : RTResult :=
  match registryRemove st key n with
  | (st', some re) => ⟨st', [n], .error re⟩
  | (st', none) =>
    if rest = [] then ⟨st', [n], .error e⟩
    else
      let r := cont st'
      ⟨r.store, n :: r.attempts, r.result⟩

/-- `keyTransport.RoundTrip` from `src/client.go`: try each candidate in
order; return the first response with status in `[200, 399]`; on failure
build the candidate's error, deregister it, and fall through (reading the
response body is modelled as always succeeding; the empty candidate list
reaches Go's `panic("unreachable")`). -/
def roundTrip (fetch : List Char → Except (List Char) Resp) (key : List Char) :
    List (List Char) → Store → RTResult
  | [], st => ⟨st, [], .error DErr.goPanic⟩
  | n :: rest, st =>
    match fetch n with
    | .ok resp =>
      if 200 ≤ resp.status ∧ resp.status ≤ 399 then ⟨st, [n], .ok resp⟩
      else
        roundTripFail key n rest st (DErr.httpError resp.status (goTrimSpace resp.body))
          (fun st' => roundTrip fetch key rest st')
    | .error m =>
      roundTripFail key n rest st (DErr.transportError m)
        (fun st' => roundTrip fetch key rest st')

/-- C10: in `keyTransport.RoundTrip`, when a candidate fails and the
`Registry.Remove` call for it itself returns an error, `RoundTrip` returns
that registry error immediately (with no response): the candidate's own
HTTP or transport error is discarded and no further candidate is
attempted. -/
theorem c10_roundTrip_remove_error (fetch : List Char → Except (List Char) Resp)
    (key n : List Char) (rest : List (List Char)) (st : Store) (re : DErr)
    (hfail : fetchSucceeds (fetch n) = false)
    (hrem : (registryRemove st key n).2 = some re) :
    roundTrip fetch key (n :: rest) st =
      ⟨(registryRemove st key n).1, [n], .error re⟩ := by
  rcases hR : registryRemove st key n with ⟨st', o⟩
  have ho : o = some re := by rw [hR] at hrem; exact hrem
  subst ho
  cases hf : fetch n with
  | ok resp =>
    rw [hf] at hfail
    have hband : ¬ (200 ≤ resp.status ∧ resp.status ≤ 399) := by
      simpa [fetchSucceeds] using hfail
    simp only [roundTrip, hf, if_neg hband, roundTripFail, hR]
  | error m =>
    simp only [roundTrip, hf, roundTripFail, hR]

theorem c10_roundTrip_remove_error_witness :
    roundTrip (fun _ => .ok ⟨500, []⟩) (gs "/k") [gs "a:1", gs "b:1"] [] =
      ⟨(registryRemove [] (gs "/k") (gs "a:1")).1, [gs "a:1"], .error DErr.keyNotExist⟩ :=
  c10_roundTrip_remove_error (fun _ => .ok ⟨500, []⟩) (gs "/k") (gs "a:1")
    [gs "b:1"] [] DErr.keyNotExist (by decide) (by decide)

/-! ## Effect of `Registry.Remove` on the store -/

/-- The store after a successful `Registry.Remove(key, n)`: both marker
entries filtered out. -/
def removedStore (st : Store) (key n : List Char) : Store :=
  (st.filter (fun e => e.path ≠ dataMarkerPath key n)).filter
    (fun e => e.path ≠ keysMarkerPath key n)

theorem pathPresent_of_filter (st : Store) (f : Entry → Bool) (q : List Char)
    (h : pathPresent (st.filter f) q) : pathPresent st q := by
  obtain ⟨e, he, hp⟩ := h
  exact ⟨e, (List.mem_filter.mp he).1, hp⟩

theorem pathPresent_filter_iff (st : Store) (p q : List Char) (h : q ≠ p) :
    pathPresent (st.filter (fun e => e.path ≠ p)) q ↔ pathPresent st q := by
  constructor
  · exact pathPresent_of_filter st _ q
  · rintro ⟨e, he, hp⟩
    exact ⟨e, List.mem_filter.mpr ⟨he, by simp [hp, h]⟩, hp⟩

theorem not_pathPresent_filter_self (st : Store) (p : List Char) :
    ¬ pathPresent (st.filter (fun e => e.path ≠ p)) p := by
  rintro ⟨e, he, hp⟩
  have := (List.mem_filter.mp he).2
  simp [hp] at this

theorem backendDelete_of_present (st : Store) (p : List Char)
    (h : pathPresent st (slash p)) :
    backendDelete st p = (st.filter (fun e => e.path ≠ slash p), none) := by
  have h' : ∃ e ∈ st, e.path = slash p := h
  rw [backendDelete, if_pos h']

theorem registryRemove_both_present (st : Store) (key n : List Char)
    (h1 : pathPresent st (dataMarkerPath key n))
    (h2 : pathPresent st (keysMarkerPath key n)) :
    registryRemove st key n = (removedStore st key n, none) := by
  have hd1 : backendDelete st (nodesForKeyDir key ++ '/' :: n) =
      (st.filter (fun e => e.path ≠ dataMarkerPath key n), none) :=
    backendDelete_of_present st _ h1
  have h2' : pathPresent (st.filter (fun e => e.path ≠ dataMarkerPath key n))
      (keysMarkerPath key n) := by
    rw [pathPresent_filter_iff st _ _ ((dataMarkerPath_ne_keysMarkerPath key n key n).symm)]
    exact h2
  rw [registryRemove, hd1]
  exact backendDelete_of_present _ _ h2'

theorem backendDelete_fst_presence (st : Store) (p q : List Char)
    (h : pathPresent (backendDelete st p).1 q) : pathPresent st q := by
  rw [backendDelete] at h
  split at h
  · exact pathPresent_of_filter st _ q h
  · exact h

theorem registryRemove_fst_presence (st : Store) (key n q : List Char)
    (h : pathPresent (registryRemove st key n).1 q) : pathPresent st q := by
  rw [registryRemove] at h
  rcases hb1 : backendDelete st (nodesForKeyDir key ++ '/' :: n) with ⟨st1, o1⟩
  rw [hb1] at h
  have hst1 : pathPresent st1 q → pathPresent st q := fun hh =>
    backendDelete_fst_presence st _ q (by rw [hb1]; exact hh)
  cases o1 with
  | some e => exact hst1 h
  | none => exact hst1 (backendDelete_fst_presence st1 _ q h)

theorem roundTrip_store_presence (fetch : List Char → Except (List Char) Resp)
    (key : List Char) :
    ∀ (nodes : List (List Char)) (st : Store) (q : List Char),
      pathPresent (roundTrip fetch key nodes st).store q → pathPresent st q := by
  intro nodes
  induction nodes with
  | nil => intro st q h; exact h
  | cons n rest ih =>
    intro st q h
    have hfailcase : ∀ e : DErr,
        pathPresent (roundTripFail key n rest st e
          (fun st' => roundTrip fetch key rest st')).store q → pathPresent st q := by
      intro e he
      rcases hR : registryRemove st key n with ⟨st', o⟩
      have hsub : pathPresent st' q → pathPresent st q := fun hh =>
        registryRemove_fst_presence st key n q (by rw [hR]; exact hh)
      cases o with
      | some re =>
        simp only [roundTripFail, hR] at he
        exact hsub he
      | none =>
        by_cases hr : rest = []
        · simp only [roundTripFail, hR, if_pos hr] at he
          exact hsub he
        · simp only [roundTripFail, hR, if_neg hr] at he
          exact hsub (ih st' q he)
    cases hf : fetch n with
    | ok resp =>
      by_cases hband : 200 ≤ resp.status ∧ resp.status ≤ 399
      · simp only [roundTrip, hf, if_pos hband] at h
        exact h
      · simp only [roundTrip, hf, if_neg hband] at h
        exact hfailcase _ h
    | error m =>
      simp only [roundTrip, hf] at h
      exact hfailcase _ h

theorem removedStore_not_data (st : Store) (key n : List Char) :
    ¬ pathPresent (removedStore st key n) (dataMarkerPath key n) := by
  intro h
  exact not_pathPresent_filter_self st (dataMarkerPath key n)
    (pathPresent_of_filter _ _ _ h)

theorem removedStore_not_keys (st : Store) (key n : List Char) :
    ¬ pathPresent (removedStore st key n) (keysMarkerPath key n) :=
  not_pathPresent_filter_self _ (keysMarkerPath key n)

theorem removedStore_presence_iff (st : Store) (key n q : List Char)
    (h1 : q ≠ dataMarkerPath key n) (h2 : q ≠ keysMarkerPath key n) :
    pathPresent (removedStore st key n) q ↔ pathPresent st q := by
  rw [removedStore, pathPresent_filter_iff _ _ _ h2, pathPresent_filter_iff _ _ _ h1]

/-! ## One failing step of `RoundTrip` -/

theorem roundTrip_cons_fail (fetch : List Char → Except (List Char) Resp)
    (key n : List Char) (rest : List (List Char)) (st : Store)
    (hfn : fetchSucceeds (fetch n) = false)
    (h1 : pathPresent st (dataMarkerPath key n))
    (h2 : pathPresent st (keysMarkerPath key n)) :
    roundTrip fetch key (n :: rest) st =
      if rest = [] then
        ⟨removedStore st key n, [n], .error (fetchFailureErr (fetch n))⟩
      else
        ⟨(roundTrip fetch key rest (removedStore st key n)).store,
          n :: (roundTrip fetch key rest (removedStore st key n)).attempts,
          (roundTrip fetch key rest (removedStore st key n)).result⟩ := by
  have hrem := registryRemove_both_present st key n h1 h2
  cases hf : fetch n with
  | ok resp =>
    rw [hf] at hfn
    have hband : ¬ (200 ≤ resp.status ∧ resp.status ≤ 399) := by
      simpa [fetchSucceeds] using hfn
    simp only [roundTrip, hf, if_neg hband, roundTripFail, hrem, fetchFailureErr]
  | error m =>
    simp only [roundTrip, hf, roundTripFail, hrem, fetchFailureErr]

theorem getLast?_cons_of_ne_nil (n : List Char) (rest : List (List Char))
    (h : rest ≠ []) : (n :: rest).getLast? = rest.getLast? := by
  have h2 : (n :: rest) = [n] ++ rest := rfl
  rw [h2, List.getLast?_append]
  obtain ⟨v, hv⟩ : ∃ v, rest.getLast? = some v := by
    cases hl : rest.getLast? with
    | none => exact absurd (List.getLast?_eq_none_iff.mp hl) h
    | some v => exact ⟨v, rfl⟩
  rw [hv]
  simp

/-! ## C1: the full `RoundTrip` policy -/

theorem roundTrip_all_fail (fetch : List Char → Except (List Char) Resp)
    (key : List Char) :
    ∀ (nodes : List (List Char)) (st : Store), nodes ≠ [] →
      (∀ n ∈ nodes, fetchSucceeds (fetch n) = false) →
      (∀ n ∈ nodes, pathPresent st (dataMarkerPath key n) ∧
        pathPresent st (keysMarkerPath key n)) →
      (nodes.map (fun n => dataMarkerPath key n)).Nodup →
      (nodes.map (fun n => keysMarkerPath key n)).Nodup →
      (roundTrip fetch key nodes st).attempts = nodes ∧
      (∃ nl, nodes.getLast? = some nl ∧
        (roundTrip fetch key nodes st).result = .error (fetchFailureErr (fetch nl))) ∧
      (∀ n ∈ nodes,
        ¬ pathPresent (roundTrip fetch key nodes st).store (dataMarkerPath key n) ∧
        ¬ pathPresent (roundTrip fetch key nodes st).store (keysMarkerPath key n)) := by
  intro nodes
  induction nodes with
  | nil => intro st h; exact absurd rfl h
  | cons n rest ih =>
    intro st _ hfail hmark hnd hnk
    have hfn := hfail n (List.mem_cons_self n rest)
    have hm := hmark n (List.mem_cons_self n rest)
    have hstep := roundTrip_cons_fail fetch key n rest st hfn hm.1 hm.2
    by_cases hr : rest = []
    · subst hr
      rw [hstep, if_pos rfl]
      refine ⟨rfl, ⟨n, rfl, rfl⟩, ?_⟩
      intro m hm2
      rcases List.mem_cons.mp hm2 with rfl | hm3
      · exact ⟨removedStore_not_data st key m, removedStore_not_keys st key m⟩
      · exact absurd hm3 (List.not_mem_nil m)
    · rw [hstep, if_neg hr]
      have hndata : ∀ m ∈ rest, dataMarkerPath key m ≠ dataMarkerPath key n := by
        intro m hm2 heq
        have hmem : dataMarkerPath key n ∈ rest.map (fun x => dataMarkerPath key x) :=
          List.mem_map.mpr ⟨m, hm2, heq⟩
        exact (List.nodup_cons.mp (by simpa using hnd)).1 hmem
      have hnkeys : ∀ m ∈ rest, keysMarkerPath key m ≠ keysMarkerPath key n := by
        intro m hm2 heq
        have hmem : keysMarkerPath key n ∈ rest.map (fun x => keysMarkerPath key x) :=
          List.mem_map.mpr ⟨m, hm2, heq⟩
        exact (List.nodup_cons.mp (by simpa using hnk)).1 hmem
      have hmark' : ∀ m ∈ rest, pathPresent (removedStore st key n) (dataMarkerPath key m) ∧
          pathPresent (removedStore st key n) (keysMarkerPath key m) := by
        intro m hm2
        have hmm := hmark m (List.mem_cons_of_mem n hm2)
        constructor
        · rw [removedStore_presence_iff st key n _ (hndata m hm2)
            (dataMarkerPath_ne_keysMarkerPath key m key n)]
          exact hmm.1
        · rw [removedStore_presence_iff st key n _
            ((dataMarkerPath_ne_keysMarkerPath key n key m).symm) (hnkeys m hm2)]
          exact hmm.2
      obtain ⟨ha, ⟨nl, hnl, hres⟩, habs⟩ := ih (removedStore st key n) hr
        (fun m hm2 => hfail m (List.mem_cons_of_mem n hm2)) hmark'
        ((List.nodup_cons.mp (by simpa using hnd)).2)
        ((List.nodup_cons.mp (by simpa using hnk)).2)
      refine ⟨?_, ⟨nl, ?_, ?_⟩, ?_⟩
      · show n :: (roundTrip fetch key rest (removedStore st key n)).attempts = n :: rest
        rw [ha]
      · rw [getLast?_cons_of_ne_nil n rest hr, hnl]
      · exact hres
      · intro m hm2
        rcases List.mem_cons.mp hm2 with rfl | hm3
        · constructor
          · intro hp
            exact removedStore_not_data st key m
              (roundTrip_store_presence fetch key rest (removedStore st key m) _ hp)
          · intro hp
            exact removedStore_not_keys st key m
              (roundTrip_store_presence fetch key rest (removedStore st key m) _ hp)
        · exact habs m hm3

theorem roundTrip_first_success (fetch : List Char → Except (List Char) Resp)
    (key : List Char) :
    ∀ (pre : List (List Char)) (n : List Char) (post : List (List Char))
      (st : Store) (resp : Resp),
      (∀ m ∈ pre, fetchSucceeds (fetch m) = false) →
      (∀ m ∈ pre, pathPresent st (dataMarkerPath key m) ∧
        pathPresent st (keysMarkerPath key m)) →
      (pre.map (fun m => dataMarkerPath key m)).Nodup →
      (pre.map (fun m => keysMarkerPath key m)).Nodup →
      fetch n = .ok resp → 200 ≤ resp.status → resp.status ≤ 399 →
      (roundTrip fetch key (pre ++ n :: post) st).attempts = pre ++ [n] ∧
      (roundTrip fetch key (pre ++ n :: post) st).result = .ok resp := by
  intro pre
  induction pre with
  | nil =>
    intro n post st resp _ _ _ _ hf h1 h2
    have hstep : roundTrip fetch key (n :: post) st = ⟨st, [n], .ok resp⟩ := by
      simp only [roundTrip, hf, if_pos (And.intro h1 h2)]
    rw [List.nil_append, hstep]
    exact ⟨rfl, rfl⟩
  | cons m pre' ih =>
    intro n post st resp hfail hmark hnd hnk hf h1 h2
    have hfm := hfail m (List.mem_cons_self m pre')
    have hm := hmark m (List.mem_cons_self m pre')
    rw [List.cons_append]
    have hne : pre' ++ n :: post ≠ [] := by simp
    have hstep := roundTrip_cons_fail fetch key m (pre' ++ n :: post) st hfm hm.1 hm.2
    rw [hstep, if_neg hne]
    have hndata : ∀ x ∈ pre', dataMarkerPath key x ≠ dataMarkerPath key m := by
      intro x hx heq
      have hmem : dataMarkerPath key m ∈ pre'.map (fun y => dataMarkerPath key y) :=
        List.mem_map.mpr ⟨x, hx, heq⟩
      exact (List.nodup_cons.mp (by simpa using hnd)).1 hmem
    have hnkeys : ∀ x ∈ pre', keysMarkerPath key x ≠ keysMarkerPath key m := by
      intro x hx heq
      have hmem : keysMarkerPath key m ∈ pre'.map (fun y => keysMarkerPath key y) :=
        List.mem_map.mpr ⟨x, hx, heq⟩
      exact (List.nodup_cons.mp (by simpa using hnk)).1 hmem
    have hmark' : ∀ x ∈ pre', pathPresent (removedStore st key m) (dataMarkerPath key x) ∧
        pathPresent (removedStore st key m) (keysMarkerPath key x) := by
      intro x hx
      have hxx := hmark x (List.mem_cons_of_mem m hx)
      constructor
      · rw [removedStore_presence_iff st key m _ (hndata x hx)
          (dataMarkerPath_ne_keysMarkerPath key x key m)]
        exact hxx.1
      · rw [removedStore_presence_iff st key m _
          ((dataMarkerPath_ne_keysMarkerPath key m key x).symm) (hnkeys x hx)]
        exact hxx.2
    obtain ⟨ha, hres⟩ := ih n post (removedStore st key m) resp
      (fun x hx => hfail x (List.mem_cons_of_mem m hx)) hmark'
      ((List.nodup_cons.mp (by simpa using hnd)).2)
      ((List.nodup_cons.mp (by simpa using hnk)).2)
      hf h1 h2
    constructor
    · show m :: (roundTrip fetch key (pre' ++ n :: post) (removedStore st key m)).attempts =
        (m :: pre') ++ [n]
      rw [ha, List.cons_append]
    · exact hres

/-- C1 (amended): for the keyed transport, over the candidate list read from
`NodesForKey`, and provided every candidate has both of its registry marker
entries present in the store with pairwise distinct marker paths (so that
each `Registry.Remove` performed by the loop succeeds): candidates are
tried in list order; if some candidate yields a response with status in
`[200, 399]`, `RoundTrip` returns the first such response, having attempted
exactly the failing candidates before it and that candidate; if no
candidate does, every candidate's markers have been removed by the time
`RoundTrip` returns, all candidates were attempted in order, and the
returned error is the last candidate's error. -/
theorem c1_keyTransport_roundTrip (fetch : List Char → Except (List Char) Resp)
    (st : Store) (key : List Char) (nodes : List (List Char))
    (hnodes : nodes = registryNodesForKey st key)
    (hne : nodes ≠ [])
    (hmark : ∀ n ∈ nodes, pathPresent st (dataMarkerPath key n) ∧
      pathPresent st (keysMarkerPath key n))
    (hnd : (nodes.map (fun n => dataMarkerPath key n)).Nodup)
    (hnk : (nodes.map (fun n => keysMarkerPath key n)).Nodup) :
    ((∀ n ∈ nodes, fetchSucceeds (fetch n) = false) →
      (roundTrip fetch key nodes st).attempts = nodes ∧
      (∃ nl, nodes.getLast? = some nl ∧
        (roundTrip fetch key nodes st).result = .error (fetchFailureErr (fetch nl))) ∧
      (∀ n ∈ nodes,
        ¬ pathPresent (roundTrip fetch key nodes st).store (dataMarkerPath key n) ∧
        ¬ pathPresent (roundTrip fetch key nodes st).store (keysMarkerPath key n))) ∧
    (∀ pre n post resp, nodes = pre ++ n :: post →
      (∀ m ∈ pre, fetchSucceeds (fetch m) = false) →
      fetch n = .ok resp → 200 ≤ resp.status → resp.status ≤ 399 →
      (roundTrip fetch key nodes st).attempts = pre ++ [n] ∧
      (roundTrip fetch key nodes st).result = .ok resp) := by
  constructor
  · intro hfa
    exact roundTrip_all_fail fetch key nodes st hne hfa hmark hnd hnk
  · rintro pre n post resp rfl hpre hf h1 h2
    refine roundTrip_first_success fetch key pre n post st resp hpre
      (fun m hm => hmark m (List.mem_append_left _ hm)) ?_ ?_ hf h1 h2
    · rw [List.map_append] at hnd
      exact hnd.of_append_left
    · rw [List.map_append] at hnk
      exact hnk.of_append_left

/-- The store of the C1 counterexample: both candidates have their
`data/`-side marker but neither has its `nodes/`-side marker, so the first
`Registry.Remove` fails after deleting only the data marker. -/
def cexStoreC1 : Store :=
  [⟨dataMarkerPath (gs "/k") (gs "a:1"), [], false⟩,
   ⟨dataMarkerPath (gs "/k") (gs "b:1"), [], false⟩]

/-- Underlying round-tripper of the C1 counterexample: candidate `a:1`
fails with a transport error, candidate `b:1` answers 200. -/
def cexFetchC1 (n : List Char) : Except (List Char) Resp :=
  if n = gs "a:1" then .error (gs "down") else .ok ⟨200, []⟩

/-- C1 counterexample: with candidates `[a:1, b:1]` read from `NodesForKey`
and `b:1` a succeeding candidate, `RoundTrip` nevertheless returns the
error of the failed `Registry.Remove` for `a:1` (not `b:1`'s response and
not the last candidate's error), attempts only `a:1`, and leaves `b:1`'s
registration in place. -/
theorem c1_keyTransport_roundTrip_counterexample :
    registryNodesForKey cexStoreC1 (gs "/k") = [gs "a:1", gs "b:1"] ∧
    fetchSucceeds (cexFetchC1 (gs "b:1")) = true ∧
    (roundTrip cexFetchC1 (gs "/k") [gs "a:1", gs "b:1"] cexStoreC1).result =
      .error DErr.keyNotExist ∧
    (roundTrip cexFetchC1 (gs "/k") [gs "a:1", gs "b:1"] cexStoreC1).attempts =
      [gs "a:1"] ∧
    pathPresent (roundTrip cexFetchC1 (gs "/k") [gs "a:1", gs "b:1"] cexStoreC1).store
      (dataMarkerPath (gs "/k") (gs "b:1")) := by
  decide

/-- The store of the C1 witness: both candidates fully registered. -/
def witStoreC1 : Store :=
  [⟨dataMarkerPath (gs "/k") (gs "a:1"), [], false⟩,
   ⟨dataMarkerPath (gs "/k") (gs "b:1"), [], false⟩,
   ⟨keysMarkerPath (gs "/k") (gs "a:1"), [], false⟩,
   ⟨keysMarkerPath (gs "/k") (gs "b:1"), [], false⟩]

theorem c1_keyTransport_roundTrip_witness :
    (roundTrip (fun _ => .ok ⟨500, []⟩) (gs "/k") [gs "a:1", gs "b:1"]
      witStoreC1).attempts = [gs "a:1", gs "b:1"] ∧
    ¬ pathPresent (roundTrip (fun _ => .ok ⟨500, []⟩) (gs "/k") [gs "a:1", gs "b:1"]
      witStoreC1).store (dataMarkerPath (gs "/k") (gs "a:1")) := by
  have h := (c1_keyTransport_roundTrip (fun _ => .ok ⟨500, []⟩) witStoreC1 (gs "/k")
    [gs "a:1", gs "b:1"] (by decide) (by decide) (by decide) (by decide) (by decide)).1
    (by decide)
  exact ⟨h.1, (h.2.2 (gs "a:1") (by decide)).1⟩

/-! ## Bucketing, `Client.update` and the balancer (C3, C4, C9) -/

/-- Modelled from the spec: `keyBucket(key, n)`, the stable non-cryptographic
hash modulo `n` used to pick a node for an orphan key (spec §4.4 and §9; the
function's defining file is not under `src/`, only its callers are). Any
deterministic hash satisfies the design; we sum the character codes. In Go,
`% 0` panics; here `keyBucket key 0` is a number that no empty list indexes. -/
def keyBucket (key : List Char) (numBuckets : Nat) : Nat :=
  (key.foldl (fun acc c => acc + c.toNat) 0) % numBuckets

/-- `Client.update` from `src/client.go` (with the cluster-node list already
resolved): an orphan key is registered to the bucketed cluster node; a key
with nodes is re-`Add`ed on each (the registration touch). `none` models
the Go index panic `clusterNodes[keyBucket ...]` on an empty cluster. -/
def clientUpdate (st : Store) (key : List Char) (clusterNodes : List (List Char)) :
    Option (Store × List (List Char)) :=
  let nodes := registryNodesForKey st key
  if nodes = [] then
    match clusterNodes[keyBucket key clusterNodes.length]? with
    | none => none
    | some regNode => some (registryAdd st key regNode, [regNode])
  else
    some (nodes.foldl (fun s n => registryAdd s key n) st, nodes)

/-- The liveness sweep of `Node.balance` for one key: for each registered
node, a GET through the keyed transport over just that node; only the store
effect (deregistration of failing nodes) is kept, errors are logged. -/
def livenessFold (fetch : List Char → List Char → Except (List Char) Resp)
    (key : List Char) (ns : List (List Char)) (st : Store) : Store :=
  ns.foldl (fun s node => (roundTrip (fetch key) key [node] s).store) st

/-- The loop of `Node.balance` from `src/node.go` over the `KeyMap()`
snapshot: an orphan key is registered to the bucketed cluster node
(`none` models the index panic on an empty cluster); for a registered key
the liveness sweep runs and, when the cycle's random draw `x` is `0`, the
key is updated once per occurrence of this node among its nodes. Returns
the final store and the keys passed to `Provider.Update` on this node. -/
def balanceGo (clusterNodes : List (List Char))
    (fetch : List Char → List Char → Except (List Char) Resp)
    (x : Nat) (self : List Char) :
    List (List Char × List (List Char)) → Store → Option (Store × List (List Char))
  | [], st => some (st, [])
  | (key, ns) :: rest, st =>
    if ns = [] then
      match clusterNodes[keyBucket key clusterNodes.length]? with
      | none => none
      | some regNode => balanceGo clusterNodes fetch x self rest (registryAdd st key regNode)
    else
      match balanceGo clusterNodes fetch x self rest (livenessFold fetch key ns st) with
      | none => none
      | some (stf, us) =>
        some (stf, (if x = 0 then (ns.filter (fun node => node = self)).map (fun _ => key)
          else []) ++ us)

/-- One cycle of `Node.balance` from `src/node.go`. Modelled from the spec
where the inputs are reads the code performs at cycle start: `keyMap` is
the `Registry.KeyMap()` snapshot (its defining file is not under `src/`),
`clusterNodes` the `NodesInCluster()` result, and `x` the cycle's single
`rand.Intn(10)` draw. An empty key map ends the cycle at once. -/
def balance (keyMap : List (List Char × List (List Char)))
    (clusterNodes : List (List Char))
    (fetch : List Char → List Char → Except (List Char) Resp)
    (x : Nat) (self : List Char) (st : Store) : Option (Store × List (List Char)) :=
  if keyMap = [] then some (st, [])
  else balanceGo clusterNodes fetch x self keyMap st

theorem balanceGo_total (cn : List (List Char))
    (fetch : List Char → List Char → Except (List Char) Resp)
    (x : Nat) (self : List Char) (hcn : cn ≠ []) :
    ∀ (L : List (List Char × List (List Char))) (st : Store),
      ∃ stf us, balanceGo cn fetch x self L st = some (stf, us) := by
  intro L
  induction L with
  | nil => intro st; exact ⟨st, [], rfl⟩
  | cons e rest ih =>
    intro st
    rcases e with ⟨key, ns⟩
    by_cases hns : ns = []
    · have hlt : keyBucket key cn.length < cn.length :=
        Nat.mod_lt _ (List.length_pos.mpr hcn)
      have hget : cn[keyBucket key cn.length]? = some (cn.get ⟨_, hlt⟩) :=
        List.getElem?_eq_getElem hlt
      obtain ⟨stf, us, heq⟩ := ih (registryAdd st key (cn.get ⟨_, hlt⟩))
      refine ⟨stf, us, ?_⟩
      simp only [balanceGo, if_pos hns, hget, heq]
    · obtain ⟨stf, us, heq⟩ := ih (livenessFold fetch key ns st)
      refine ⟨stf, (if x = 0 then (ns.filter (fun node => node = self)).map (fun _ => key)
        else []) ++ us, ?_⟩
      simp only [balanceGo, if_neg hns, heq]

/-- C9: the bucketed index `clusterNodes[keyBucket(key, len(clusterNodes))]`
used by `Client.update` and by the balancer's orphan-key healing is in
bounds for every key exactly under the precondition of a non-empty cluster
node list: with a non-empty cluster both operations are total, and with an
empty cluster the orphan-key path has no defined result (the Go code would
panic on the index). -/
theorem c9_bucket_bounds (st : Store) (key self : List Char)
    (cn : List (List Char)) (keyMap : List (List Char × List (List Char)))
    (fetch : List Char → List Char → Except (List Char) Resp) (x : Nat) :
    (cn ≠ [] → keyBucket key cn.length < cn.length) ∧
    (cn ≠ [] → (clientUpdate st key cn).isSome = true) ∧
    (registryNodesForKey st key = [] → clientUpdate st key [] = none) ∧
    (cn ≠ [] → (balanceGo cn fetch x self keyMap st).isSome = true) := by
  refine ⟨?_, ?_, ?_, ?_⟩
  · intro hcn
    exact Nat.mod_lt _ (List.length_pos.mpr hcn)
  · intro hcn
    rw [clientUpdate]
    by_cases hn : registryNodesForKey st key = []
    · have hlt : keyBucket key cn.length < cn.length :=
        Nat.mod_lt _ (List.length_pos.mpr hcn)
      have hget : cn[keyBucket key cn.length]? = some (cn.get ⟨_, hlt⟩) :=
        List.getElem?_eq_getElem hlt
      simp [hn, hget]
    · simp only [if_neg hn, Option.isSome_some]
  · intro hn
    rw [clientUpdate]
    simp only [hn, if_pos rfl]
    rfl
  · intro hcn
    obtain ⟨stf, us, heq⟩ := balanceGo_total cn fetch x self hcn keyMap st
    rw [heq]
    rfl

theorem c9_bucket_bounds_witness :
    keyBucket (gs "/k") 2 < 2 ∧
      (clientUpdate [] (gs "/k") [gs "A:1", gs "B:1"]).isSome = true ∧
      clientUpdate [] (gs "/k") [] = none := by
  have h := c9_bucket_bounds [] (gs "/k") (gs "A:1") [gs "A:1", gs "B:1"] []
    (fun _ _ => .ok ⟨200, []⟩) 1
  exact ⟨h.1 (by decide), h.2.1 (by decide),
    (c9_bucket_bounds [] (gs "/k") (gs "A:1") [] [] (fun _ _ => .ok ⟨200, []⟩) 1).2.2.1
      (by decide)⟩

/-! ## C4: the balancer's update sampling -/

theorem balanceGo_updates (cn : List (List Char))
    (fetch : List Char → List Char → Except (List Char) Resp)
    (x : Nat) (self : List Char) :
    ∀ (L : List (List Char × List (List Char))) (st stf : Store) (us : List (List Char)),
      balanceGo cn fetch x self L st = some (stf, us) →
      (x = 0 → ∀ k, (k ∈ us ↔ ∃ ns, (k, ns) ∈ L ∧ self ∈ ns)) ∧
      (x ≠ 0 → us = []) := by
  intro L
  induction L with
  | nil =>
    intro st stf us h
    simp only [balanceGo, Option.some.injEq, Prod.mk.injEq] at h
    obtain ⟨rfl, rfl⟩ := h
    exact ⟨fun _ k => by simp, fun _ => rfl⟩
  | cons e rest ih =>
    intro st stf us h
    rcases e with ⟨key, ns⟩
    by_cases hns : ns = []
    · rw [balanceGo, if_pos hns] at h
      rcases hg : cn[keyBucket key cn.length]? with _ | rn
      · rw [hg] at h
        exact absurd h (by simp)
      · rw [hg] at h
        obtain ⟨h0, hx⟩ := ih _ _ _ h
        constructor
        · intro hx0 k
          rw [h0 hx0 k]
          constructor
          · rintro ⟨ns', hm, hs⟩
            exact ⟨ns', List.mem_cons_of_mem _ hm, hs⟩
          · rintro ⟨ns', hm, hs⟩
            rcases List.mem_cons.mp hm with heq | hm2
            · have hns' : ns' = ns := (Prod.mk.injEq _ _ _ _ ▸ heq).2
              rw [hns', hns] at hs
              exact absurd hs (List.not_mem_nil self)
            · exact ⟨ns', hm2, hs⟩
        · exact hx
    · rw [balanceGo, if_neg hns] at h
      rcases hr : balanceGo cn fetch x self rest (livenessFold fetch key ns st)
        with _ | ⟨stf', us'⟩
      · rw [hr] at h
        exact absurd h (by simp)
      · rw [hr] at h
        simp only [Option.some.injEq, Prod.mk.injEq] at h
        obtain ⟨rfl, rfl⟩ := h
        obtain ⟨h0, hx⟩ := ih _ _ _ hr
        constructor
        · intro hx0 k
          simp only [if_pos hx0, List.mem_append]
          rw [h0 hx0 k]
          constructor
          · rintro (hk | ⟨ns', hm, hs⟩)
            · obtain ⟨a, ha, hak⟩ := List.mem_map.mp hk
              have ha2 := List.mem_filter.mp ha
              have has : a = self := by simpa using ha2.2
              subst hak
              exact ⟨ns, List.mem_cons_self _ _, has ▸ ha2.1⟩
            · exact ⟨ns', List.mem_cons_of_mem _ hm, hs⟩
          · rintro ⟨ns', hm, hs⟩
            rcases List.mem_cons.mp hm with heq | hm2
            · left
              have hk : k = key := (Prod.mk.injEq _ _ _ _ ▸ heq).1
              have hns' : ns' = ns := (Prod.mk.injEq _ _ _ _ ▸ heq).2
              subst hk
              rw [hns'] at hs
              exact List.mem_map.mpr ⟨self, List.mem_filter.mpr ⟨hs, by simp⟩, rfl⟩
            · exact Or.inr ⟨ns', hm2, hs⟩
        · intro hx1
          rw [if_neg hx1, List.nil_append]
          exact hx hx1

/-- C4 (amended): the balancer draws a single pseudo-random `x = Intn(10)`
per cycle, not per key; when `x = 0` (probability 1/10) every key owned by
the current node is age-refreshed via `Provider.Update`, and when `x ≠ 0`
no key is. The inverse 10 is hard-coded (`src/node.go:386` with a TODO to
make it tunable). -/
theorem c4_balance_update_sampling (keyMap : List (List Char × List (List Char)))
    (cn : List (List Char))
    (fetch : List Char → List Char → Except (List Char) Resp)
    (x : Nat) (self : List Char) (st stf : Store) (us : List (List Char))
    (h : balance keyMap cn fetch x self st = some (stf, us)) :
    (x = 0 → ∀ k, (k ∈ us ↔ ∃ ns, (k, ns) ∈ keyMap ∧ self ∈ ns)) ∧
    (x ≠ 0 → us = []) := by
  rw [balance] at h
  by_cases hk : keyMap = []
  · rw [if_pos hk] at h
    simp only [Option.some.injEq, Prod.mk.injEq] at h
    obtain ⟨rfl, rfl⟩ := h
    subst hk
    exact ⟨fun _ k => by simp, fun _ => rfl⟩
  · rw [if_neg hk] at h
    exact balanceGo_updates cn fetch x self keyMap st stf us h

/-- The key map of the C4 counterexample and witness: two keys, both owned
by node `A:1`. -/
def c4KeyMap : List (List Char × List (List Char)) :=
  [(gs "/k1", [gs "A:1"]), (gs "/k2", [gs "A:1"])]

/-- C4 counterexample: the per-key sampling decision is not independent per
key: over every possible draw `x` of `rand.Intn(10)`, the two owned keys
`/k1` and `/k2` are always updated together or not at all ({only `/k1`} is
impossible, though independent 1/10-per-key sampling would give it positive
probability); at `x = 0` both are updated, at `x = 1` none is. -/
theorem c4_balance_update_sampling_counterexample :
    ((List.range 10).all (fun x =>
      match balance c4KeyMap [gs "A:1"] (fun _ _ => .ok ⟨200, []⟩) x (gs "A:1") [] with
      | some (_, us) => decide ((gs "/k1" ∈ us) ↔ (gs "/k2" ∈ us))
      | none => false)) = true ∧
    (balance c4KeyMap [gs "A:1"] (fun _ _ => .ok ⟨200, []⟩) 0 (gs "A:1") []).map
      (fun p => p.2) = some [gs "/k1", gs "/k2"] ∧
    (balance c4KeyMap [gs "A:1"] (fun _ _ => .ok ⟨200, []⟩) 1 (gs "A:1") []).map
      (fun p => p.2) = some [] := by
  decide

theorem c4_balance_update_sampling_witness :
    (gs "/k1" ∈ [gs "/k1", gs "/k2"]) ↔
      ∃ ns, (gs "/k1", ns) ∈ c4KeyMap ∧ gs "A:1" ∈ ns :=
  (c4_balance_update_sampling c4KeyMap [gs "A:1"] (fun _ _ => .ok ⟨200, []⟩) 0
    (gs "A:1") [] [] [gs "/k1", gs "/k2"] (by decide)).1 rfl (gs "/k1")

/-! ## C3: orphan-key healing by the balancer

The store-effect machinery: processing one key of the key map only touches
paths below that key's own `data/<key>/__nodes` directory and below
`nodes/`, so the listing of a different, path-independent key is
unchanged. -/

theorem filterMap_filter_path_ne {α : Type} (f : Entry → Option α) (p : List Char)
    (hf : ∀ e : Entry, e.path = p → f e = none) :
    ∀ st : Store, (st.filter (fun e => e.path ≠ p)).filterMap f = st.filterMap f := by
  intro st
  induction st with
  | nil => rfl
  | cons e t ih =>
    by_cases hep : e.path = p
    · have h1 : (e :: t).filter (fun e => e.path ≠ p) = t.filter (fun e => e.path ≠ p) := by
        simp [List.filter_cons, hep]
      rw [h1, ih, List.filterMap_cons, hf e hep]
    · have h1 : (e :: t).filter (fun e => e.path ≠ p) =
          e :: t.filter (fun e => e.path ≠ p) := by
        simp [List.filter_cons, hep]
      rw [h1, List.filterMap_cons, List.filterMap_cons, ih]

theorem filterMap_backendSet {α : Type} (f : Entry → Option α) (p v : List Char)
    (hf : ∀ e : Entry, e.path = slash p → f e = none) (st : Store) :
    (backendSet st p v).filterMap f = st.filterMap f := by
  rw [backendSet, List.filterMap_cons, hf _ rfl, filterMap_filter_path_ne f (slash p) hf st]

theorem filterMap_backendDelete {α : Type} (f : Entry → Option α) (p : List Char)
    (hf : ∀ e : Entry, e.path = slash p → f e = none) (st : Store) :
    ((backendDelete st p).1).filterMap f = st.filterMap f := by
  rw [backendDelete]
  split
  · exact filterMap_filter_path_ne f (slash p) hf st
  · rfl

/-- The entry-selector of `backendListKeys` for a directory rejects every
entry whose path does not extend the directory's listing request path. -/
theorem fLK_none (dir p : List Char)
    (hp : p.take (dirListPre dir).length ≠ dirListPre dir) :
    ∀ e : Entry, e.path = p →
      (if e.dir = false ∧ (e.path.take (dirListPre dir).length = dirListPre dir) then
        some (e.path.drop (dirListPre dir).length)
      else none) = none := by
  intro e he
  rw [if_neg]
  rintro ⟨_, ht⟩
  rw [he] at ht
  exact hp ht

theorem take_append_ne (pre' pre x : List Char)
    (h1 : pre'.take pre.length ≠ pre) (h2 : pre.take pre'.length ≠ pre') :
    (pre' ++ x).take pre.length ≠ pre := by
  intro h
  rcases le_or_lt pre.length pre'.length with hle | hlt
  · rw [List.take_append_of_le_length hle] at h
    exact h1 h
  · have hx : pre' ++ x = pre ++ (pre' ++ x).drop pre.length := by
      conv_lhs => rw [← List.take_append_drop pre.length (pre' ++ x)]
      rw [h]
    have h3 := congrArg (List.take pre'.length) hx
    rw [List.take_left, List.take_append_of_le_length (le_of_lt hlt)] at h3
    exact h2 h3.symm

/-- `nodes/`-side marker paths never lie below any `data/<key>/__nodes`
directory (their second characters differ). -/
theorem keysMarker_take_ne (k' n' key : List Char) :
    (keysMarkerPath k' n').take (dirListPre (nodesForKeyDir key)).length ≠
      dirListPre (nodesForKeyDir key) := by
  obtain ⟨t, ht⟩ := nodesForKeyDir_head key
  obtain ⟨t', ht'⟩ := keysForNodeDir_head n'
  have hpre : dirListPre (nodesForKeyDir key) = '/' :: 'd' :: (t ++ ['/']) := by
    rw [dirListPre_eq _ (goodDir_nodesForKeyDir key), ht, slash_of_head_ne _ _ (by decide)]
    simp
  have hkm : keysMarkerPath k' n' = '/' :: 'n' :: (t' ++ '/' :: k') := by
    rw [keysMarkerPath, ht', List.cons_append, slash_of_head_ne _ _ (by decide)]
  intro h
  have hx : keysMarkerPath k' n' =
      dirListPre (nodesForKeyDir key) ++
        (keysMarkerPath k' n').drop (dirListPre (nodesForKeyDir key)).length := by
    conv_lhs => rw [← List.take_append_drop (dirListPre (nodesForKeyDir key)).length
      (keysMarkerPath k' n')]
    rw [h]
  rw [hkm, hpre] at hx
  simp only [List.cons_append] at hx
  exact absurd (List.cons.inj (List.cons.inj hx).2).1 (by decide)

/-- Path-independence of two keys: neither key's marker directory lies
below the other's (this is automatic for real key maps, where no listed
key extends another through its `__nodes` subtree). -/
def dirsIndependent (k k' : List Char) : Prop :=
  (dirListPre (nodesForKeyDir k')).take (dirListPre (nodesForKeyDir k)).length ≠
      dirListPre (nodesForKeyDir k) ∧
    (dirListPre (nodesForKeyDir k)).take (dirListPre (nodesForKeyDir k')).length ≠
      dirListPre (nodesForKeyDir k')

instance (k k' : List Char) : Decidable (dirsIndependent k k') := by
  unfold dirsIndependent
  infer_instance

theorem dataMarker_take_ne (k' n' key : List Char) (hind : dirsIndependent key k') :
    (dataMarkerPath k' n').take (dirListPre (nodesForKeyDir key)).length ≠
      dirListPre (nodesForKeyDir key) := by
  rw [dataMarkerPath_eq]
  exact take_append_ne _ _ _ hind.1 hind.2

/-- The listing selector of `registryNodesForKey`, made explicit. -/
def keySel (key : List Char) (e : Entry) : Option (List Char) :=
  if e.dir = false ∧ (e.path.take (dirListPre (nodesForKeyDir key)).length =
      dirListPre (nodesForKeyDir key)) then
    some (e.path.drop (dirListPre (nodesForKeyDir key)).length)
  else none

theorem registryNodesForKey_def (st : Store) (key : List Char) :
    registryNodesForKey st key = st.filterMap (keySel key) := rfl

theorem keySel_none (key p : List Char)
    (hp : p.take (dirListPre (nodesForKeyDir key)).length ≠
      dirListPre (nodesForKeyDir key)) :
    ∀ e : Entry, e.path = p → keySel key e = none :=
  fLK_none (nodesForKeyDir key) p hp

theorem listKeys_registryAdd_other (st : Store) (key k' rn : List Char)
    (hind : dirsIndependent key k') :
    registryNodesForKey (registryAdd st k' rn) key = registryNodesForKey st key := by
  rw [registryNodesForKey_def, registryNodesForKey_def, registryAdd]
  rw [filterMap_backendSet (keySel key) _ _ (keySel_none key _ (keysMarker_take_ne k' rn key)),
    filterMap_backendSet (keySel key) _ _ (keySel_none key _ (dataMarker_take_ne k' rn key hind))]

theorem listKeys_backendDelete_other (st : Store) (key p : List Char)
    (hp : (slash p).take (dirListPre (nodesForKeyDir key)).length ≠
      dirListPre (nodesForKeyDir key)) :
    registryNodesForKey (backendDelete st p).1 key = registryNodesForKey st key := by
  rw [registryNodesForKey_def, registryNodesForKey_def]
  exact filterMap_backendDelete (keySel key) _ (keySel_none key _ hp) st

theorem listKeys_registryRemove_other (st : Store) (key k' n : List Char)
    (hind : dirsIndependent key k') :
    registryNodesForKey (registryRemove st k' n).1 key = registryNodesForKey st key := by
  rcases hb1 : backendDelete st (nodesForKeyDir k' ++ '/' :: n) with ⟨st1, o1⟩
  have e1 : registryNodesForKey st1 key = registryNodesForKey st key := by
    have h := listKeys_backendDelete_other st key (nodesForKeyDir k' ++ '/' :: n)
      (dataMarker_take_ne k' n key hind)
    rw [hb1] at h
    exact h
  cases o1 with
  | some e =>
    rw [registryRemove, hb1]
    exact e1
  | none =>
    rw [registryRemove, hb1]
    have e2 := listKeys_backendDelete_other st1 key (keysForNodeDir n ++ '/' :: k')
      (keysMarker_take_ne k' n key)
    exact e2.trans e1

theorem listKeys_roundTrip_other (fetch : List Char → Except (List Char) Resp)
    (k' key : List Char) (hind : dirsIndependent key k') :
    ∀ (nodes : List (List Char)) (st : Store),
      registryNodesForKey (roundTrip fetch k' nodes st).store key =
        registryNodesForKey st key := by
  intro nodes
  induction nodes with
  | nil => intro st; rfl
  | cons n rest ih =>
    intro st
    have hfailcase : ∀ e : DErr,
        registryNodesForKey (roundTripFail k' n rest st e
          (fun st' => roundTrip fetch k' rest st')).store key =
          registryNodesForKey st key := by
      intro e
      rcases hR : registryRemove st k' n with ⟨st', o⟩
      have hsub : registryNodesForKey st' key = registryNodesForKey st key := by
        have h := listKeys_registryRemove_other st key k' n hind
        rw [hR] at h
        exact h
      cases o with
      | some re => simp only [roundTripFail, hR]; exact hsub
      | none =>
        by_cases hr : rest = []
        · simp only [roundTripFail, hR, if_pos hr]
          exact hsub
        · simp only [roundTripFail, hR, if_neg hr]
          exact (ih st').trans hsub
    cases hf : fetch n with
    | ok resp =>
      by_cases hband : 200 ≤ resp.status ∧ resp.status ≤ 399
      · simp only [roundTrip, hf, if_pos hband]
      · simp only [roundTrip, hf, if_neg hband]
        exact hfailcase _
    | error m =>
      simp only [roundTrip, hf]
      exact hfailcase _

theorem listKeys_livenessFold_other (fetch : List Char → List Char → Except (List Char) Resp)
    (k' key : List Char) (hind : dirsIndependent key k') :
    ∀ (ns : List (List Char)) (st : Store),
      registryNodesForKey (livenessFold fetch k' ns st) key =
        registryNodesForKey st key := by
  intro ns
  induction ns with
  | nil => intro st; rfl
  | cons n t ih =>
    intro st
    show registryNodesForKey (livenessFold fetch k' t
      ((roundTrip (fetch k') k' [n] st).store)) key = _
    rw [ih, listKeys_roundTrip_other (fetch k') k' key hind]

/-- Registering an orphan key makes its node list exactly the added node. -/
theorem registryNodesForKey_add_self (st : Store) (key rn : List Char)
    (h : registryNodesForKey st key = []) :
    registryNodesForKey (registryAdd st key rn) key = [rn] := by
  rw [registryNodesForKey_def, registryAdd]
  rw [filterMap_backendSet (keySel key) _ _ (keySel_none key _ (keysMarker_take_ne key rn key))]
  rw [backendSet, List.filterMap_cons]
  have hpath : (⟨slash (nodesForKeyDir key ++ '/' :: rn), [], false⟩ : Entry).path =
      dirListPre (nodesForKeyDir key) ++ rn := dataMarkerPath_eq key rn
  have hhead : keySel key ⟨slash (nodesForKeyDir key ++ '/' :: rn), [], false⟩ = some rn := by
    rw [keySel, if_pos]
    · rw [hpath, List.drop_left]
    · exact ⟨rfl, by rw [hpath, List.take_left]⟩
  rw [hhead]
  have hnone : ∀ e ∈ st, keySel key e = none := by
    rw [registryNodesForKey_def] at h
    exact List.filterMap_eq_nil_iff.mp h
  have htail : (st.filter (fun e =>
      e.path ≠ slash (nodesForKeyDir key ++ '/' :: rn))).filterMap (keySel key) =
        ([] : List (List Char)) :=
    List.filterMap_eq_nil_iff.mpr (fun e he => hnone e (List.mem_filter.mp he).1)
  rw [htail]

theorem listKeys_balanceGo_other (cn : List (List Char))
    (fetch : List Char → List Char → Except (List Char) Resp)
    (x : Nat) (self key : List Char) :
    ∀ (L : List (List Char × List (List Char))) (st stf : Store) (us : List (List Char)),
      (∀ e ∈ L, dirsIndependent key e.1) →
      balanceGo cn fetch x self L st = some (stf, us) →
      registryNodesForKey stf key = registryNodesForKey st key := by
  intro L
  induction L with
  | nil =>
    intro st stf us _ h
    simp only [balanceGo, Option.some.injEq, Prod.mk.injEq] at h
    obtain ⟨rfl, rfl⟩ := h
    rfl
  | cons e rest ih =>
    intro st stf us hind h
    rcases e with ⟨k2, ns⟩
    have hk2 : dirsIndependent key k2 := hind (k2, ns) (List.mem_cons_self _ _)
    by_cases hns : ns = []
    · rw [balanceGo, if_pos hns] at h
      rcases hg : cn[keyBucket k2 cn.length]? with _ | rn
      · rw [hg] at h
        exact absurd h (by simp)
      · rw [hg] at h
        have hrec := ih _ _ _ (fun e he => hind e (List.mem_cons_of_mem _ he)) h
        rw [hrec, listKeys_registryAdd_other st key k2 rn hk2]
    · rw [balanceGo, if_neg hns] at h
      rcases hr : balanceGo cn fetch x self rest (livenessFold fetch k2 ns st)
        with _ | ⟨stf', us'⟩
      · rw [hr] at h
        exact absurd h (by simp)
      · rw [hr] at h
        simp only [Option.some.injEq, Prod.mk.injEq] at h
        obtain ⟨rfl, rfl⟩ := h
        have hrec := ih _ _ _ (fun e he => hind e (List.mem_cons_of_mem _ he)) hr
        rw [hrec, listKeys_livenessFold_other fetch k2 key hk2 ns st]

theorem balanceGo_orphan_spec (cn : List (List Char))
    (fetch : List Char → List Char → Except (List Char) Resp)
    (x : Nat) (self key : List Char) (hcn : cn ≠ []) :
    ∀ (L : List (List Char × List (List Char))) (st : Store),
      (∀ e ∈ L, e.1 ≠ key → dirsIndependent key e.1) →
      ((key, ([] : List (List Char))) ∈ L) →
      ((L.map Prod.fst).Nodup) →
      registryNodesForKey st key = [] →
      ∃ stf us rn, balanceGo cn fetch x self L st = some (stf, us) ∧
        cn[keyBucket key cn.length]? = some rn ∧
        registryNodesForKey stf key = [rn] := by
  intro L
  induction L with
  | nil => intro st _ hmem _ _; exact absurd hmem (List.not_mem_nil _)
  | cons e rest ih =>
    intro st hind hmem hnodup hempty
    rcases e with ⟨k2, ns⟩
    rcases List.mem_cons.mp hmem with heq | hmem2
    · obtain ⟨hk2, hns⟩ := Prod.mk.inj heq
      subst hk2
      subst hns
      have hlt : keyBucket key cn.length < cn.length :=
        Nat.mod_lt _ (List.length_pos.mpr hcn)
      have hget : cn[keyBucket key cn.length]? = some (cn.get ⟨_, hlt⟩) :=
        List.getElem?_eq_getElem hlt
      have hafter : registryNodesForKey (registryAdd st key (cn.get ⟨_, hlt⟩)) key =
          [cn.get ⟨_, hlt⟩] :=
        registryNodesForKey_add_self st key _ hempty
      obtain ⟨stf, us, heq2⟩ := balanceGo_total cn fetch x self hcn rest
        (registryAdd st key (cn.get ⟨_, hlt⟩))
      have hrestind : ∀ e ∈ rest, dirsIndependent key e.1 := by
        intro e he
        refine hind e (List.mem_cons_of_mem _ he) ?_
        intro hh
        have hmm : key ∈ rest.map Prod.fst := List.mem_map.mpr ⟨e, he, hh⟩
        exact (List.nodup_cons.mp (by simpa using hnodup)).1 hmm
      have hfinal : registryNodesForKey stf key = [cn.get ⟨_, hlt⟩] := by
        rw [listKeys_balanceGo_other cn fetch x self key rest _ _ _ hrestind heq2, hafter]
      refine ⟨stf, us, cn.get ⟨_, hlt⟩, ?_, hget, hfinal⟩
      simp only [balanceGo, hget, if_true, if_pos]
      exact heq2
    · have hk2ne : k2 ≠ key := by
        intro hh
        subst hh
        have hmm : k2 ∈ rest.map Prod.fst := List.mem_map.mpr ⟨(k2, []), hmem2, rfl⟩
        exact (List.nodup_cons.mp (by simpa using hnodup)).1 hmm
      have hindk2 : dirsIndependent key k2 := hind (k2, ns) (List.mem_cons_self _ _) hk2ne
      have hnodup' : (rest.map Prod.fst).Nodup := (List.nodup_cons.mp (by simpa using hnodup)).2
      have hind' : ∀ e ∈ rest, e.1 ≠ key → dirsIndependent key e.1 :=
        fun e he => hind e (List.mem_cons_of_mem _ he)
      by_cases hns : ns = []
      · have hlt2 : keyBucket k2 cn.length < cn.length :=
          Nat.mod_lt _ (List.length_pos.mpr hcn)
        have hget2 : cn[keyBucket k2 cn.length]? = some (cn.get ⟨_, hlt2⟩) :=
          List.getElem?_eq_getElem hlt2
        have hempty' : registryNodesForKey (registryAdd st k2 (cn.get ⟨_, hlt2⟩)) key = [] := by
          rw [listKeys_registryAdd_other st key k2 _ hindk2]
          exact hempty
        obtain ⟨stf, us, rn, heq2, hget, hfinal⟩ :=
          ih (registryAdd st k2 (cn.get ⟨_, hlt2⟩)) hind' hmem2 hnodup' hempty'
        refine ⟨stf, us, rn, ?_, hget, hfinal⟩
        simp only [balanceGo, if_pos hns, hget2, heq2]
      · have hempty' : registryNodesForKey (livenessFold fetch k2 ns st) key = [] := by
          rw [listKeys_livenessFold_other fetch k2 key hindk2 ns st]
          exact hempty
        obtain ⟨stf, us, rn, heq2, hget, hfinal⟩ :=
          ih (livenessFold fetch k2 ns st) hind' hmem2 hnodup' hempty'
        refine ⟨stf, (if x = 0 then (ns.filter (fun node => node = self)).map (fun _ => k2)
          else []) ++ us, rn, ?_, hget, hfinal⟩
        simp only [balanceGo, if_neg hns, heq2]

/-- C3: in one balancer cycle, for every key that the `KeyMap()` snapshot
reports with no registered nodes (the key being truly orphaned in the
store), given a non-empty cluster node list and key-map keys whose marker
directories are pairwise path-independent of the orphan's, the balancer
registers exactly the node `clusterNodes[keyBucket(key, |clusterNodes|)]`
for that key: afterwards `Registry.NodesForKey(key)` is non-empty and
equals just that bucketed node. -/
theorem c3_balancer_orphan_heal (keyMap : List (List Char × List (List Char)))
    (cn : List (List Char))
    (fetch : List Char → List Char → Except (List Char) Resp)
    (x : Nat) (self : List Char) (st : Store) (key : List Char)
    (hmem : (key, ([] : List (List Char))) ∈ keyMap)
    (hnodup : (keyMap.map Prod.fst).Nodup)
    (hcn : cn ≠ [])
    (hind : ∀ e ∈ keyMap, e.1 ≠ key → dirsIndependent key e.1)
    (hempty : registryNodesForKey st key = []) :
    ∃ stf us rn, balance keyMap cn fetch x self st = some (stf, us) ∧
      cn[keyBucket key cn.length]? = some rn ∧
      registryNodesForKey stf key = [rn] := by
  have hne : keyMap ≠ [] := by
    intro hk
    subst hk
    exact absurd hmem (List.not_mem_nil _)
  rw [balance, if_neg hne]
  exact balanceGo_orphan_spec cn fetch x self key hcn keyMap st hind hmem hnodup hempty

theorem c3_balancer_orphan_heal_witness :
    ∃ stf us rn,
      balance [(gs "/k", [])] [gs "A:1", gs "B:1"] (fun _ _ => .ok ⟨200, []⟩) 1
        (gs "A:1") [] = some (stf, us) ∧
      ([gs "A:1", gs "B:1"])[keyBucket (gs "/k") ([gs "A:1", gs "B:1"]).length]? = some rn ∧
      registryNodesForKey stf (gs "/k") = [rn] :=
  c3_balancer_orphan_heal [(gs "/k", [])] [gs "A:1", gs "B:1"]
    (fun _ _ => .ok ⟨200, []⟩) 1 (gs "A:1") [] (gs "/k")
    (by decide) (by decide) (by decide) (by decide) (by decide)

end Datad
